import Mathlib

/-!
Verification of the associationsubgraphs (entropynet) native core.

The repository's visible source, `src/src/RcppExports.cpp`, is generated
binding glue registering two native entry points:

* `find_components(a, b, w)` — connected components of the weighted
  undirected graph given as an edge list of parallel sequences;
* `edges_to_all_nodes(a, b, n)` — the count of distinct node labels.

The bodies of the two core functions are not part of the shown source, so
the core is modelled here from the specification (spec.md §§2-4, 6-7) and
the glue's signatures; each such definition's doc comment records this.
-/

namespace Entropynet

/-- Modelled from the spec: the input boundary of `find_components`
(spec §6) — three parallel sequences `a` (source labels), `b`
(destination labels) and `w` (weights).  The C++ body of
`find_components` is absent from the repository; only its declaration
`DataFrame find_components(CharacterVector a, CharacterVector b,
NumericVector w)` appears in `src/src/RcppExports.cpp`. -/
structure GraphInput where
  a : List String
  b : List String
  w : List Rat

/-- Modelled from the spec (§3 Node): the distinct labels of a combined
label sequence, in order of first appearance. -/
def firstSeen : List String → List String
  | [] => []
  | x :: xs => x :: (firstSeen xs).filter (fun y => y != x)

/-- Modelled from the spec (§3 Node): labels are drawn from the
concatenation of the source and destination sequences. -/
def combined (g : GraphInput) : List String :=
  g.a ++ g.b

/-- Modelled from the spec (§4.1): the label→id mapping's domain, in
first-appearance order across the concatenated source and destination
sequences. -/
def nodeLabels (g : GraphInput) : List String :=
  firstSeen (combined g)

/-- Modelled from the spec (§3 Node): the dense integer id assigned to a
label — its position in the first-appearance order, ids contiguous from
0. -/
def nodeId (g : GraphInput) (l : String) : Nat :=
  (nodeLabels g).indexOf l

/-- Modelled from the spec (§3 Node): the number of distinct node labels
referenced by the edge list. -/
def numNodes (g : GraphInput) : Nat :=
  (nodeLabels g).length

/-- Modelled from the spec (§3 Node): the label carried by a dense id
(left inverse of `nodeId` on assigned ids). -/
def labelOf (g : GraphInput) (i : Nat) : String :=
  (nodeLabels g).getD i ""

/-- Modelled from the spec (§3 Edge): the edge list pairs the two label
sequences position by position. -/
def pairUp : List String → List String → List (String × String)
  | x :: xs, y :: ys => (x, y) :: pairUp xs ys
  | _, _ => []

/-- Modelled from the spec (§4.1): the edge list at the label level. -/
def edgePairs (g : GraphInput) : List (String × String) :=
  pairUp g.a g.b

/-- Modelled from the spec (§4.1): the normalized edge list over dense
integer ids. -/
def edgeIds (g : GraphInput) : List (Nat × Nat) :=
  (edgePairs g).map (fun p => (nodeId g p.1, nodeId g p.2))

/-- Modelled from the spec (§4.2): one union step of the disjoint-set
pass — the class of the edge's first endpoint is redirected onto the
class of the second, merging the two sets (a no-op when they already
coincide). -/
def unionStep (r : Nat → Nat) (e : Nat × Nat) : Nat → Nat :=
  fun z => if r z = r e.1 then r e.2 else r z

/-- Modelled from the spec (§4.2): process edges in input order, for each
edge unioning the two endpoints' sets; the result maps every node id to
a representative shared exactly by its component. -/
def buildRepr (es : List (Nat × Nat)) : Nat → Nat :=
  es.foldl unionStep (fun z => z)

/-- The least `m < n` satisfying `p`, if any (bounded linear search). -/
def leastSuchThat (p : Nat → Bool) : Nat → Option Nat
  | 0 => none
  | n + 1 =>
    match leastSuchThat p n with
    | some m => some m
    | none => if p n then some n else none

/-- Modelled from the spec (§4.2): the smallest node id (by insertion
order of labels) in the set of `i`, under representative map `r` over
`n` nodes. -/
def minRep (r : Nat → Nat) (n i : Nat) : Nat :=
  (leastSuchThat (fun j => r j == r i) n).getD i

/-- Modelled from the spec (§4.2): the canonical, deterministic component
identifier — ids are assigned in increasing order of the smallest node id
found in each set, so the id of `i`'s component counts the components
whose smallest member precedes `i`'s. -/
def canonicalId (r : Nat → Nat) (n i : Nat) : Nat :=
  ((Finset.range (minRep r n i)).filter (fun j => minRep r n j = j)).card

/-- Modelled from the spec (§7): the error taxonomy of the core. -/
inductive CompError where
  | lengthMismatch
deriving DecidableEq

/-- Modelled from the spec (§4.1): the validity condition — the three
input sequences have equal length. -/
abbrev validLengths (g : GraphInput) : Prop :=
  g.a.length = g.b.length ∧ g.b.length = g.w.length

/-- Modelled from the spec (§§4.1-4.2, 6-7): the `find_components` entry
point.  It takes exactly the three parallel sequences; on a length
mismatch it fails immediately with `LengthMismatchError` and produces no
rows; otherwise it returns the table with one row per distinct node
label, columns (label, canonical component id), rows in first-appearance
order. -/
def find_components (g : GraphInput) : Except CompError (List (String × Nat)) :=
  if validLengths g then
    Except.ok ((nodeLabels g).map (fun l =>
      (l, canonicalId (buildRepr (edgeIds g)) (numNodes g) (nodeId g l))))
  else
    Except.error CompError.lengthMismatch

/-- Modelled from the spec (§4.3): the `edges_to_all_nodes` entry point —
the count of distinct labels appearing across both sequences combined.
The open question of §9 (the role of `n`) is resolved as the spec's
scenario dictates: the computed distinct-label count is returned and `n`
is not consulted. -/
def edges_to_all_nodes (a b : List String) (_n : Int) : Int :=
  ((firstSeen (a ++ b)).length : Int)

/-- Modelled from the spec (§3 Edge / glossary): two labels are adjacent
when some input position pairs them, in either orientation (edges are
undirected for connectivity). -/
def adjLabel (g : GraphInput) (u v : String) : Prop :=
  (u, v) ∈ edgePairs g ∨ (v, u) ∈ edgePairs g

/-- Modelled from the spec (glossary Component): connectivity by some
path of edges, treated as undirected — the equivalence closure of
adjacency. -/
def Connected (g : GraphInput) (u v : String) : Prop :=
  Relation.EqvGen (adjLabel g) u v

/-- Two labels are assigned the same component by `find_components`:
both appear in the returned table carrying one common component id. -/
def assignedSame (g : GraphInput) (u v : String) : Prop :=
  ∃ rows c, find_components g = Except.ok rows ∧ (u, c) ∈ rows ∧ (v, c) ∈ rows

/-- The registration table of `src/src/RcppExports.cpp` (`CallEntries`):
each exported symbol with its declared argument count. -/
def CallEntries : List (String × Nat) :=
  [("_entropynet_find_components", 3), ("_entropynet_edges_to_all_nodes", 3)]

/-! ### Lemmas: first-appearance label normalization -/

theorem mem_firstSeen {l : String} : ∀ {ls : List String}, l ∈ firstSeen ls ↔ l ∈ ls := by
  intro ls
  induction ls with
  | nil => simp [firstSeen]
  | cons x xs ih =>
    by_cases h : l = x <;> simp [firstSeen, List.mem_filter, bne_iff_ne, ih, h]

theorem firstSeen_nodup : ∀ (ls : List String), (firstSeen ls).Nodup := by
  intro ls
  induction ls with
  | nil => simp [firstSeen]
  | cons x xs ih =>
    simp only [firstSeen, List.nodup_cons]
    refine ⟨?_, ih.filter _⟩
    simp [List.mem_filter]

/-! ### Lemmas: bounded least-witness search -/

theorem leastSuchThat_none {p : Nat → Bool} :
    ∀ {n : Nat}, leastSuchThat p n = none → ∀ k, k < n → p k = false := by
  intro n
  induction n with
  | zero => intro _ k hk; omega
  | succ n ih =>
    intro h k hk
    unfold leastSuchThat at h
    cases heq : leastSuchThat p n with
    | some m => rw [heq] at h; exact absurd h (by simp)
    | none =>
      rw [heq] at h
      cases hp : p n with
      | true => rw [hp] at h; exact absurd h (by simp)
      | false =>
        rcases Nat.lt_succ_iff_lt_or_eq.mp hk with hk' | hk'
        · exact ih heq k hk'
        · rw [hk']; exact hp

theorem leastSuchThat_some {p : Nat → Bool} :
    ∀ {n m : Nat}, leastSuchThat p n = some m →
      m < n ∧ p m = true ∧ ∀ k, k < m → p k = false := by
  intro n
  induction n with
  | zero => intro m h; exact absurd h (by simp [leastSuchThat])
  | succ n ih =>
    intro m h
    unfold leastSuchThat at h
    cases heq : leastSuchThat p n with
    | some m' =>
      rw [heq] at h
      obtain rfl : m' = m := by simpa using h
      obtain ⟨h1, h2, h3⟩ := ih heq
      exact ⟨Nat.lt_succ_of_lt h1, h2, h3⟩
    | none =>
      rw [heq] at h
      cases hp : p n with
      | true =>
        rw [hp] at h
        obtain rfl : n = m := by simpa using h
        exact ⟨Nat.lt_succ_self _, hp, leastSuchThat_none heq⟩
      | false => rw [hp] at h; exact absurd h (by simp)

theorem leastSuchThat_isSome {p : Nat → Bool} {n k : Nat} (hk : k < n) (hp : p k = true) :
    ∃ m, leastSuchThat p n = some m := by
  cases heq : leastSuchThat p n with
  | some m => exact ⟨m, rfl⟩
  | none => exact absurd hp (by simp [leastSuchThat_none heq k hk])

/-! ### Lemmas: the smallest member of a representative class -/

theorem minRep_spec {r : Nat → Nat} {n i : Nat} (h : i < n) :
    minRep r n i < n ∧ r (minRep r n i) = r i ∧ minRep r n i ≤ i ∧
      ∀ k, k < minRep r n i → r k ≠ r i := by
  obtain ⟨m, hm⟩ := leastSuchThat_isSome (p := fun j => r j == r i) h (by simp)
  obtain ⟨h1, h2, h3⟩ := leastSuchThat_some hm
  have hval : minRep r n i = m := by simp [minRep, hm]
  rw [hval]
  refine ⟨h1, by simpa using h2, ?_, ?_⟩
  · by_contra hc
    have := h3 i (by omega)
    simp at this
  · intro k hk hc
    have := h3 k hk
    simp [hc] at this

theorem minRep_lt {r : Nat → Nat} {n i : Nat} (h : i < n) : minRep r n i < n :=
  (minRep_spec h).1

theorem minRep_repr {r : Nat → Nat} {n i : Nat} (h : i < n) : r (minRep r n i) = r i :=
  (minRep_spec h).2.1

theorem minRep_le {r : Nat → Nat} {n i : Nat} (h : i < n) : minRep r n i ≤ i :=
  (minRep_spec h).2.2.1

theorem minRep_least {r : Nat → Nat} {n i : Nat} (h : i < n) :
    ∀ k, k < minRep r n i → r k ≠ r i :=
  (minRep_spec h).2.2.2

theorem minRep_congr {r : Nat → Nat} {n i j : Nat} (hi : i < n) (h : r i = r j) :
    minRep r n i = minRep r n j := by
  have hfun : (fun k => r k == r i) = (fun k => r k == r j) := by
    funext k; rw [h]
  obtain ⟨m, hm⟩ := leastSuchThat_isSome (p := fun k => r k == r i) hi (by simp)
  have hm' : leastSuchThat (fun k => r k == r j) n = some m := by rw [← hfun]; exact hm
  simp [minRep, hm, hm']

theorem repr_eq_iff_minRep {r : Nat → Nat} {n i j : Nat} (hi : i < n) (hj : j < n) :
    r i = r j ↔ minRep r n i = minRep r n j := by
  constructor
  · exact minRep_congr hi
  · intro h
    have h1 := minRep_repr (r := r) hi
    have h2 := minRep_repr (r := r) hj
    rw [h] at h1
    exact h1.symm.trans h2

theorem minRep_idem {r : Nat → Nat} {n i : Nat} (hi : i < n) :
    minRep r n (minRep r n i) = minRep r n i :=
  (repr_eq_iff_minRep (minRep_lt hi) hi).mp (minRep_repr hi)

/-! ### Lemmas: canonical component identifiers -/

theorem canonicalId_congr {r : Nat → Nat} {n i j : Nat} (h : minRep r n i = minRep r n j) :
    canonicalId r n i = canonicalId r n j := by
  unfold canonicalId
  rw [h]

theorem canonicalId_strict_mono {r : Nat → Nat} {n i j : Nat} (hi : i < n) (_hj : j < n)
    (h : minRep r n i < minRep r n j) : canonicalId r n i < canonicalId r n j := by
  unfold canonicalId
  apply Finset.card_lt_card
  rw [Finset.ssubset_iff_of_subset
    (Finset.filter_subset_filter _ (Finset.range_subset.mpr (Nat.le_of_lt h)))]
  refine ⟨minRep r n i, ?_, ?_⟩
  · rw [Finset.mem_filter, Finset.mem_range]
    exact ⟨h, minRep_idem hi⟩
  · rw [Finset.mem_filter, Finset.mem_range]
    intro hc
    exact absurd hc.1 (lt_irrefl _)

theorem canonicalId_eq_iff {r : Nat → Nat} {n i j : Nat} (hi : i < n) (hj : j < n) :
    canonicalId r n i = canonicalId r n j ↔ minRep r n i = minRep r n j := by
  constructor
  · intro h
    rcases lt_trichotomy (minRep r n i) (minRep r n j) with hc | hc | hc
    · exact absurd h (Nat.ne_of_lt (canonicalId_strict_mono hi hj hc))
    · exact hc
    · exact absurd h.symm (Nat.ne_of_lt (canonicalId_strict_mono hj hi hc))
  · exact canonicalId_congr

theorem canonicalId_lt_iff {r : Nat → Nat} {n i j : Nat} (hi : i < n) (hj : j < n) :
    canonicalId r n i < canonicalId r n j ↔ minRep r n i < minRep r n j := by
  constructor
  · intro h
    rcases lt_trichotomy (minRep r n i) (minRep r n j) with hc | hc | hc
    · exact hc
    · exact absurd (canonicalId_congr hc) (Nat.ne_of_lt h)
    · exact absurd h (Nat.not_lt.mpr (Nat.le_of_lt (canonicalId_strict_mono hj hi hc)))
  · exact canonicalId_strict_mono hi hj

theorem canonicalId_eq_iff_repr {r : Nat → Nat} {n i j : Nat} (hi : i < n) (hj : j < n) :
    canonicalId r n i = canonicalId r n j ↔ r i = r j :=
  (canonicalId_eq_iff hi hj).trans (repr_eq_iff_minRep hi hj).symm

/-! ### Lemmas: equivalence closure -/

theorem eqvGen_mono_closure {α : Type} {r s : α → α → Prop}
    (h : ∀ u v, r u v → Relation.EqvGen s u v) :
    ∀ {u v : α}, Relation.EqvGen r u v → Relation.EqvGen s u v := by
  intro u v huv
  induction huv with
  | rel x y hxy => exact h x y hxy
  | refl x => exact Relation.EqvGen.refl x
  | symm x y _ ih => exact Relation.EqvGen.symm x y ih
  | trans x y z _ _ ih1 ih2 => exact Relation.EqvGen.trans x y z ih1 ih2

theorem eqvGen_map_closure {α β : Type} (f : α → β) {r : α → α → Prop} {s : β → β → Prop}
    (h : ∀ u v, r u v → Relation.EqvGen s (f u) (f v)) :
    ∀ {u v : α}, Relation.EqvGen r u v → Relation.EqvGen s (f u) (f v) := by
  intro u v huv
  induction huv with
  | rel x y hxy => exact h x y hxy
  | refl x => exact Relation.EqvGen.refl (f x)
  | symm x y _ ih => exact Relation.EqvGen.symm (f x) (f y) ih
  | trans x y z _ _ ih1 ih2 => exact Relation.EqvGen.trans (f x) (f y) (f z) ih1 ih2

theorem eqvGen_or_swap_iff {α : Type} (r : α → α → Prop) (u v : α) :
    Relation.EqvGen (fun x y => r x y ∨ r y x) u v ↔ Relation.EqvGen r u v := by
  constructor
  · refine eqvGen_mono_closure ?_
    intro x y hxy
    rcases hxy with h | h
    · exact Relation.EqvGen.rel x y h
    · exact Relation.EqvGen.symm y x (Relation.EqvGen.rel y x h)
  · refine eqvGen_mono_closure ?_
    intro x y hxy
    exact Relation.EqvGen.rel x y (Or.inl hxy)

/-! ### Lemmas: the kernel of the union-find representative map -/

theorem unionStep_eq_iff (r : Nat → Nat) (e : Nat × Nat) (u v : Nat) :
    unionStep r e u = unionStep r e v ↔
      (r u = r v ∨ (r u = r e.1 ∧ r e.2 = r v) ∨ (r u = r e.2 ∧ r e.1 = r v)) := by
  constructor
  · intro h
    unfold unionStep at h
    by_cases h1 : r u = r e.1 <;> by_cases h2 : r v = r e.1 <;> simp only [h1, h2, if_pos, if_neg, if_true, if_false, reduceIte] at h
    · exact Or.inl (h1.trans h2.symm)
    · exact Or.inr (Or.inl ⟨h1, h⟩)
    · exact Or.inr (Or.inr ⟨h, h2.symm⟩)
    · exact Or.inl h
  · intro h
    unfold unionStep
    rcases h with h | ⟨ha, hb⟩ | ⟨ha, hb⟩
    · by_cases h1 : r u = r e.1
      · rw [if_pos h1, if_pos (h.symm.trans h1)]
      · rw [if_neg h1, if_neg fun hc => h1 (h.trans hc)]
        exact h
    · rw [if_pos ha]
      by_cases h2 : r v = r e.1
      · rw [if_pos h2]
      · rw [if_neg h2]
        exact hb
    · by_cases h1 : r u = r e.1
      · rw [if_pos h1, if_pos hb.symm]
      · rw [if_neg h1, if_pos hb.symm]
        exact ha

theorem foldl_unionStep_eq_iff :
    ∀ (es : List (Nat × Nat)) (r0 : Nat → Nat) (u v : Nat),
      List.foldl unionStep r0 es u = List.foldl unionStep r0 es v ↔
        Relation.EqvGen (fun x y => r0 x = r0 y ∨ (x, y) ∈ es) u v := by
  intro es
  induction es with
  | nil =>
    intro r0 u v
    simp only [List.foldl_nil]
    constructor
    · intro h
      exact Relation.EqvGen.rel u v (Or.inl h)
    · intro h
      induction h with
      | rel x y hxy =>
        rcases hxy with h | h
        · exact h
        · exact absurd h (List.not_mem_nil _)
      | refl x => rfl
      | symm x y _ ih => exact ih.symm
      | trans x y z _ _ ih1 ih2 => exact ih1.trans ih2
  | cons e es ih =>
    obtain ⟨e1, e2⟩ := e
    intro r0 u v
    simp only [List.foldl_cons]
    rw [ih (unionStep r0 (e1, e2)) u v]
    constructor
    · refine eqvGen_mono_closure ?_
      intro x y hxy
      rcases hxy with hk | hmem
      · rw [unionStep_eq_iff] at hk
        rcases hk with h0 | ⟨h1, h2⟩ | ⟨h1, h2⟩
        · exact Relation.EqvGen.rel x y (Or.inl h0)
        · refine Relation.EqvGen.trans x e1 y (Relation.EqvGen.rel x e1 (Or.inl h1)) ?_
          refine Relation.EqvGen.trans e1 e2 y ?_ (Relation.EqvGen.rel e2 y (Or.inl h2))
          exact Relation.EqvGen.rel e1 e2 (Or.inr (List.mem_cons_self _ _))
        · refine Relation.EqvGen.trans x e2 y (Relation.EqvGen.rel x e2 (Or.inl h1)) ?_
          refine Relation.EqvGen.trans e2 e1 y ?_ (Relation.EqvGen.rel e1 y (Or.inl h2))
          exact Relation.EqvGen.symm e1 e2 (Relation.EqvGen.rel e1 e2 (Or.inr (List.mem_cons_self _ _)))
      · exact Relation.EqvGen.rel x y (Or.inr (List.mem_cons_of_mem _ hmem))
    · refine eqvGen_mono_closure ?_
      intro x y hxy
      rcases hxy with h0 | hmem
      · exact Relation.EqvGen.rel x y (Or.inl ((unionStep_eq_iff r0 (e1, e2) x y).mpr (Or.inl h0)))
      · rcases List.mem_cons.mp hmem with heq | hmem'
        · obtain ⟨rfl, rfl⟩ := Prod.mk.injEq .. ▸ heq
          refine Relation.EqvGen.rel x y (Or.inl ?_)
          exact (unionStep_eq_iff r0 (x, y) x y).mpr (Or.inr (Or.inl ⟨rfl, rfl⟩))
        · exact Relation.EqvGen.rel x y (Or.inr hmem')

theorem buildRepr_eq_iff (es : List (Nat × Nat)) (u v : Nat) :
    buildRepr es u = buildRepr es v ↔ Relation.EqvGen (fun x y => (x, y) ∈ es) u v := by
  unfold buildRepr
  rw [foldl_unionStep_eq_iff]
  constructor
  · refine eqvGen_mono_closure ?_
    intro x y hxy
    rcases hxy with h0 | hm
    · cases h0
      exact Relation.EqvGen.refl x
    · exact Relation.EqvGen.rel x y hm
  · refine eqvGen_mono_closure ?_
    intro x y hxy
    exact Relation.EqvGen.rel x y (Or.inr hxy)

/-! ### Lemmas: the pairing of the two label sequences -/

theorem mem_pairUp : ∀ {xs ys : List String} {p : String × String},
    p ∈ pairUp xs ys → p.1 ∈ xs ∧ p.2 ∈ ys := by
  intro xs
  induction xs with
  | nil => intro ys p h; simp [pairUp] at h
  | cons x xs ih =>
    intro ys p h
    cases ys with
    | nil => simp [pairUp] at h
    | cons y ys =>
      rcases List.mem_cons.mp h with he | ht
      · rw [he]
        exact ⟨List.mem_cons_self _ _, List.mem_cons_self _ _⟩
      · obtain ⟨h1, h2⟩ := ih ht
        exact ⟨List.mem_cons_of_mem _ h1, List.mem_cons_of_mem _ h2⟩

theorem pairUp_append : ∀ {xs ys : List String}, xs.length = ys.length →
    ∀ (x y : String), pairUp (xs ++ [x]) (ys ++ [y]) = pairUp xs ys ++ [(x, y)] := by
  intro xs
  induction xs with
  | nil =>
    intro ys h x y
    cases ys with
    | nil => rfl
    | cons y' ys => simp at h
  | cons a as ih =>
    intro ys h x y
    cases ys with
    | nil => simp at h
    | cons b bs =>
      simp only [List.length_cons, Nat.succ.injEq] at h
      simp only [List.cons_append, pairUp, List.append_eq]
      rw [ih h x y]

/-! ### Lemmas: label ids and the output table -/

theorem nodeId_lt {g : GraphInput} {l : String} (h : l ∈ nodeLabels g) :
    nodeId g l < numNodes g :=
  List.indexOf_lt_length.mpr h

theorem labelOf_nodeId {g : GraphInput} {l : String} (h : l ∈ nodeLabels g) :
    labelOf g (nodeId g l) = l := by
  unfold labelOf nodeId
  rw [List.getD_eq_getElem _ _ (List.indexOf_lt_length.mpr h)]
  exact List.indexOf_get _

theorem nodeId_inj {g : GraphInput} {l l' : String} (hl : l ∈ nodeLabels g)
    (hl' : l' ∈ nodeLabels g) (h : nodeId g l = nodeId g l') : l = l' :=
  (List.indexOf_inj hl hl').mp h

theorem edgePairs_mem_labels {g : GraphInput} {p : String × String} (h : p ∈ edgePairs g) :
    p.1 ∈ nodeLabels g ∧ p.2 ∈ nodeLabels g := by
  obtain ⟨h1, h2⟩ := mem_pairUp h
  constructor
  · exact mem_firstSeen.mpr (List.mem_append_left _ h1)
  · exact mem_firstSeen.mpr (List.mem_append_right _ h2)

theorem find_components_ok {g : GraphInput} (h : validLengths g) :
    find_components g = Except.ok ((nodeLabels g).map (fun l =>
      (l, canonicalId (buildRepr (edgeIds g)) (numNodes g) (nodeId g l)))) := by
  unfold find_components
  rw [if_pos h]

theorem mem_rows_iff {g : GraphInput} {p : String × Nat} (h : validLengths g)
    {rows : List (String × Nat)} (hrows : find_components g = Except.ok rows) :
    p ∈ rows ↔ p.1 ∈ nodeLabels g ∧
      p.2 = canonicalId (buildRepr (edgeIds g)) (numNodes g) (nodeId g p.1) := by
  rw [find_components_ok h] at hrows
  obtain rfl : _ = rows := Except.ok.inj hrows
  rw [List.mem_map]
  constructor
  · rintro ⟨l, hl, rfl⟩
    exact ⟨hl, rfl⟩
  · rintro ⟨hl, hp⟩
    refine ⟨p.1, hl, ?_⟩
    rw [← hp]

/-! ### Lemmas: connectivity transfers between labels and ids -/

theorem connected_iff_repr_eq {g : GraphInput} {l l' : String} (hl : l ∈ nodeLabels g)
    (hl' : l' ∈ nodeLabels g) :
    Connected g l l' ↔
      buildRepr (edgeIds g) (nodeId g l) = buildRepr (edgeIds g) (nodeId g l') := by
  rw [buildRepr_eq_iff]
  constructor
  · intro h
    refine eqvGen_map_closure (nodeId g) ?_ h
    intro u v huv
    rcases huv with hm | hm
    · refine Relation.EqvGen.rel _ _ ?_
      exact List.mem_map.mpr ⟨(u, v), hm, rfl⟩
    · refine Relation.EqvGen.symm _ _ (Relation.EqvGen.rel _ _ ?_)
      exact List.mem_map.mpr ⟨(v, u), hm, rfl⟩
  · intro h
    have h2 := eqvGen_map_closure (labelOf g) (s := adjLabel g) ?_ h
    · rw [labelOf_nodeId hl, labelOf_nodeId hl'] at h2
      exact h2
    · intro i j hij
      obtain ⟨q, hq, heq⟩ := List.mem_map.mp hij
      obtain ⟨rfl, rfl⟩ := Prod.mk.injEq .. ▸ heq.symm
      obtain ⟨hq1, hq2⟩ := edgePairs_mem_labels hq
      rw [labelOf_nodeId hq1, labelOf_nodeId hq2]
      exact Relation.EqvGen.rel _ _ (Or.inl hq)

theorem canonicalId_eq_iff_connected {g : GraphInput} {l l' : String}
    (hl : l ∈ nodeLabels g) (hl' : l' ∈ nodeLabels g) :
    canonicalId (buildRepr (edgeIds g)) (numNodes g) (nodeId g l) =
        canonicalId (buildRepr (edgeIds g)) (numNodes g) (nodeId g l') ↔
      Connected g l l' :=
  (canonicalId_eq_iff_repr (nodeId_lt hl) (nodeId_lt hl')).trans
    (connected_iff_repr_eq hl hl').symm

theorem assignedSame_iff {g : GraphInput} (h : validLengths g) (l l' : String) :
    assignedSame g l l' ↔
      l ∈ nodeLabels g ∧ l' ∈ nodeLabels g ∧ Connected g l l' := by
  constructor
  · rintro ⟨rows, c, hrows, hmem, hmem'⟩
    obtain ⟨h1, h2⟩ := (mem_rows_iff h hrows).mp hmem
    obtain ⟨h1', h2'⟩ := (mem_rows_iff h hrows).mp hmem'
    refine ⟨h1, h1', ?_⟩
    exact (canonicalId_eq_iff_connected h1 h1').mp (h2.symm.trans h2')
  · rintro ⟨h1, h1', hc⟩
    refine ⟨_, canonicalId (buildRepr (edgeIds g)) (numNodes g) (nodeId g l),
      find_components_ok h, ?_, ?_⟩
    · exact List.mem_map.mpr ⟨l, h1, rfl⟩
    · have := (canonicalId_eq_iff_connected h1 h1').mpr hc
      rw [this]
      exact List.mem_map.mpr ⟨l', h1', rfl⟩

/-! ### Lemmas: appending one more edge whose endpoints already occur -/

theorem mem_nodeLabels_snoc {g : GraphInput} {x y : String} {c : Rat}
    (hx : x ∈ combined g) (hy : y ∈ combined g) (l : String) :
    l ∈ nodeLabels ⟨g.a ++ [x], g.b ++ [y], g.w ++ [c]⟩ ↔ l ∈ nodeLabels g := by
  unfold nodeLabels combined
  unfold combined at hx hy
  rw [mem_firstSeen, mem_firstSeen]
  simp only [List.mem_append, List.mem_singleton] at hx hy ⊢
  constructor
  · rintro ((h1 | rfl) | (h1 | rfl))
    · exact Or.inl h1
    · exact hx
    · exact Or.inr h1
    · exact hy
  · rintro (h1 | h1)
    · exact Or.inl (Or.inl h1)
    · exact Or.inr (Or.inl h1)

theorem connected_snoc_iff {g : GraphInput} {x y : String} {c : Rat}
    (h : validLengths g) (hdup : (x, y) ∈ edgePairs g ∨ (y, x) ∈ edgePairs g)
    (u v : String) :
    Connected ⟨g.a ++ [x], g.b ++ [y], g.w ++ [c]⟩ u v ↔ Connected g u v := by
  have hep : edgePairs (⟨g.a ++ [x], g.b ++ [y], g.w ++ [c]⟩ : GraphInput) =
      edgePairs g ++ [(x, y)] := pairUp_append h.1 x y
  unfold Connected
  constructor
  · refine eqvGen_mono_closure ?_
    intro p q hpq
    unfold adjLabel at hpq
    rw [hep] at hpq
    simp only [List.mem_append, List.mem_singleton] at hpq
    rcases hpq with (hm | he) | (hm | he)
    · exact Relation.EqvGen.rel p q (Or.inl hm)
    · obtain ⟨rfl, rfl⟩ := Prod.mk.injEq .. ▸ he
      exact Relation.EqvGen.rel _ _ hdup
    · exact Relation.EqvGen.rel p q (Or.inr hm)
    · obtain ⟨rfl, rfl⟩ := Prod.mk.injEq .. ▸ he
      exact Relation.EqvGen.rel _ _ hdup.symm
  · refine eqvGen_mono_closure ?_
    intro p q hpq
    refine Relation.EqvGen.rel p q ?_
    unfold adjLabel at hpq ⊢
    rw [hep]
    rcases hpq with hm | hm
    · exact Or.inl (List.mem_append_left _ hm)
    · exact Or.inr (List.mem_append_left _ hm)

/-! ### Lemma: distinct-label counting -/

theorem firstSeen_length_eq_card (ls : List String) :
    (firstSeen ls).length = ls.toFinset.card := by
  have h1 : (firstSeen ls).toFinset = ls.toFinset := by
    apply Finset.ext
    intro l
    simp [List.mem_toFinset, mem_firstSeen]
  rw [← List.toFinset_card_of_nodup (firstSeen_nodup ls), h1]

/-! ## The claims -/

/-- Claim C1: for every valid input, `find_components` assigns each node a
component id such that two nodes receive the same component id if and only
if there is a path of edges between them, every edge treated as undirected
regardless of weight. -/
theorem find_components_component_iff_path (g : GraphInput) (h : validLengths g) :
    ∃ rows, find_components g = Except.ok rows ∧
      ∀ p ∈ rows, ∀ q ∈ rows,
        ((p : String × Nat).2 = (q : String × Nat).2 ↔ Connected g p.1 q.1) := by
  refine ⟨_, find_components_ok h, ?_⟩
  intro p hp q hq
  obtain ⟨hp1, hp2⟩ := (mem_rows_iff h (find_components_ok h)).mp hp
  obtain ⟨hq1, hq2⟩ := (mem_rows_iff h (find_components_ok h)).mp hq
  rw [hp2, hq2]
  exact canonicalId_eq_iff_connected hp1 hq1

/-- Witness for C1 at the spec's scenario `a=[x,y], b=[y,z], w=[1,1]`. -/
theorem find_components_component_iff_path_witness :
    ∃ rows, find_components ⟨["x", "y"], ["y", "z"], [1, 1]⟩ = Except.ok rows ∧
      ∀ p ∈ rows, ∀ q ∈ rows,
        ((p : String × Nat).2 = (q : String × Nat).2 ↔
          Connected ⟨["x", "y"], ["y", "z"], [1, 1]⟩ p.1 q.1) :=
  find_components_component_iff_path ⟨["x", "y"], ["y", "z"], [1, 1]⟩ (by decide)

/-- Claim C2: for every valid input, the returned assignment is a partition
of the distinct node labels — the labels of the rows are exactly the
distinct labels of the input, with no label repeated, and each label
carries exactly one component id (one row per label). -/
theorem find_components_partition (g : GraphInput) (h : validLengths g) :
    ∃ rows, find_components g = Except.ok rows ∧
      (rows.map Prod.fst).Nodup ∧
      (∀ l, l ∈ rows.map Prod.fst ↔ l ∈ g.a ++ g.b) ∧
      ∀ p ∈ rows, ∀ q ∈ rows, (p : String × Nat).1 = (q : String × Nat).1 → p = q := by
  refine ⟨_, find_components_ok h, ?_, ?_, ?_⟩
  · rw [List.map_map]
    have : (Prod.fst ∘ fun l =>
        (l, canonicalId (buildRepr (edgeIds g)) (numNodes g) (nodeId g l))) = id := rfl
    rw [this, List.map_id]
    exact firstSeen_nodup _
  · intro l
    rw [List.map_map]
    have : (Prod.fst ∘ fun l =>
        (l, canonicalId (buildRepr (edgeIds g)) (numNodes g) (nodeId g l))) = id := rfl
    rw [this, List.map_id]
    exact mem_firstSeen
  · intro p hp q hq heq
    obtain ⟨hp1, hp2⟩ := (mem_rows_iff h (find_components_ok h)).mp hp
    obtain ⟨hq1, hq2⟩ := (mem_rows_iff h (find_components_ok h)).mp hq
    refine Prod.ext heq ?_
    rw [hp2, hq2, heq]

/-- Witness for C2 at the spec's scenario `a=[x,y], b=[y,z], w=[1,1]`. -/
theorem find_components_partition_witness :
    ∃ rows, find_components ⟨["x", "y"], ["y", "z"], [1, 1]⟩ = Except.ok rows ∧
      (rows.map Prod.fst).Nodup ∧
      (∀ l, l ∈ rows.map Prod.fst ↔ l ∈ ["x", "y"] ++ ["y", "z"]) ∧
      ∀ p ∈ rows, ∀ q ∈ rows, (p : String × Nat).1 = (q : String × Nat).1 → p = q :=
  find_components_partition ⟨["x", "y"], ["y", "z"], [1, 1]⟩ (by decide)

/-- Claim C3: `find_components` fails with `LengthMismatchError` exactly
when the three input sequences do not all have the same length; the error
is the whole result (no partial rows), and equal-length inputs never
produce it. -/
theorem find_components_lengthMismatch_iff (g : GraphInput) :
    find_components g = Except.error CompError.lengthMismatch ↔ ¬ validLengths g := by
  unfold find_components
  by_cases h : validLengths g <;> simp [h]

/-- Claim C4: the empty input (three empty sequences) is valid and
produces the empty label mapping, the empty edge list, and a table with
zero rows. -/
theorem find_components_empty_input :
    find_components ⟨[], [], []⟩ = Except.ok [] ∧
      nodeLabels ⟨[], [], []⟩ = [] ∧ edgeIds ⟨[], [], []⟩ = [] :=
  ⟨rfl, rfl, rfl⟩

/-- Claim C5: appending an additional edge whose endpoint pair already
occurs in the input (same or different weight, either orientation) leaves
the component grouping unchanged: any two labels are assigned a common
component id after the append exactly when they were before. -/
theorem find_components_duplicate_edge (g : GraphInput) (x y : String) (c : Rat)
    (h : validLengths g) (hdup : (x, y) ∈ edgePairs g ∨ (y, x) ∈ edgePairs g)
    (l l' : String) :
    assignedSame ⟨g.a ++ [x], g.b ++ [y], g.w ++ [c]⟩ l l' ↔ assignedSame g l l' := by
  have hxy : x ∈ combined g ∧ y ∈ combined g := by
    rcases hdup with hd | hd
    · obtain ⟨h1, h2⟩ := mem_pairUp hd
      exact ⟨List.mem_append_left _ h1, List.mem_append_right _ h2⟩
    · obtain ⟨h1, h2⟩ := mem_pairUp hd
      exact ⟨List.mem_append_right _ h2, List.mem_append_left _ h1⟩
  have hv' : validLengths (⟨g.a ++ [x], g.b ++ [y], g.w ++ [c]⟩ : GraphInput) := by
    obtain ⟨h1, h2⟩ := h
    constructor <;> simp [h1, h2]
  rw [assignedSame_iff hv', assignedSame_iff h,
    mem_nodeLabels_snoc hxy.1 hxy.2 l, mem_nodeLabels_snoc hxy.1 hxy.2 l',
    connected_snoc_iff h hdup l l']

/-- Witness for C5: duplicating the edge (x, y) of `a=[x,y], b=[y,z]`
with a different weight does not change whether x and z share a
component. -/
theorem find_components_duplicate_edge_witness :
    assignedSame ⟨["x", "y"] ++ ["x"], ["y", "z"] ++ ["y"], [1, 1] ++ [2]⟩ "x" "z" ↔
      assignedSame ⟨["x", "y"], ["y", "z"], [1, 1]⟩ "x" "z" :=
  find_components_duplicate_edge ⟨["x", "y"], ["y", "z"], [1, 1]⟩ "x" "y" 2
    (by decide) (by decide) "x" "z"

/-- Claim C6: component finding is deterministic — two runs on identical
input yield identical output, including assignment, component ids and row
ordering (the operation is a pure function of its input). -/
theorem find_components_deterministic (g : GraphInput) :
    find_components g = find_components g := rfl

/-- Claim C7: for every valid input, canonical component identifiers are
ordered by the smallest node id (first-appearance insertion order)
contained in each component — `minRep` is that smallest member, and
canonical ids compare exactly as the smallest members do — and the rows
follow the first-appearance order of the labels in the combined
source/destination sequence. -/
theorem find_components_canonical_order (g : GraphInput) (h : validLengths g) :
    ∃ rows, find_components g = Except.ok rows ∧
      rows.map Prod.fst = firstSeen (g.a ++ g.b) ∧
      (∀ i, i < numNodes g →
        minRep (buildRepr (edgeIds g)) (numNodes g) i ≤ i ∧
        buildRepr (edgeIds g) (minRep (buildRepr (edgeIds g)) (numNodes g) i) =
          buildRepr (edgeIds g) i ∧
        ∀ k, k < minRep (buildRepr (edgeIds g)) (numNodes g) i →
          buildRepr (edgeIds g) k ≠ buildRepr (edgeIds g) i) ∧
      ∀ i, i < numNodes g → ∀ j, j < numNodes g →
        (canonicalId (buildRepr (edgeIds g)) (numNodes g) i <
            canonicalId (buildRepr (edgeIds g)) (numNodes g) j ↔
          minRep (buildRepr (edgeIds g)) (numNodes g) i <
            minRep (buildRepr (edgeIds g)) (numNodes g) j) := by
  refine ⟨_, find_components_ok h, ?_, ?_, ?_⟩
  · rw [List.map_map]
    have : (Prod.fst ∘ fun l =>
        (l, canonicalId (buildRepr (edgeIds g)) (numNodes g) (nodeId g l))) = id := rfl
    rw [this, List.map_id]
    rfl
  · intro i hi
    exact ⟨minRep_le hi, minRep_repr hi, fun k hk => minRep_least hi k hk⟩
  · intro i hi j hj
    exact canonicalId_lt_iff hi hj

/-- Witness for C7 at the spec's scenario `a=[x,y], b=[y,z], w=[1,1]`. -/
theorem find_components_canonical_order_witness :
    ∃ rows, find_components ⟨["x", "y"], ["y", "z"], [1, 1]⟩ = Except.ok rows ∧
      rows.map Prod.fst = firstSeen (["x", "y"] ++ ["y", "z"]) ∧
      (∀ i, i < numNodes ⟨["x", "y"], ["y", "z"], [1, 1]⟩ →
        minRep (buildRepr (edgeIds ⟨["x", "y"], ["y", "z"], [1, 1]⟩))
            (numNodes ⟨["x", "y"], ["y", "z"], [1, 1]⟩) i ≤ i ∧
        buildRepr (edgeIds ⟨["x", "y"], ["y", "z"], [1, 1]⟩)
            (minRep (buildRepr (edgeIds ⟨["x", "y"], ["y", "z"], [1, 1]⟩))
              (numNodes ⟨["x", "y"], ["y", "z"], [1, 1]⟩) i) =
          buildRepr (edgeIds ⟨["x", "y"], ["y", "z"], [1, 1]⟩) i ∧
        ∀ k, k < minRep (buildRepr (edgeIds ⟨["x", "y"], ["y", "z"], [1, 1]⟩))
            (numNodes ⟨["x", "y"], ["y", "z"], [1, 1]⟩) i →
          buildRepr (edgeIds ⟨["x", "y"], ["y", "z"], [1, 1]⟩) k ≠
            buildRepr (edgeIds ⟨["x", "y"], ["y", "z"], [1, 1]⟩) i) ∧
      ∀ i, i < numNodes ⟨["x", "y"], ["y", "z"], [1, 1]⟩ →
        ∀ j, j < numNodes ⟨["x", "y"], ["y", "z"], [1, 1]⟩ →
        (canonicalId (buildRepr (edgeIds ⟨["x", "y"], ["y", "z"], [1, 1]⟩))
            (numNodes ⟨["x", "y"], ["y", "z"], [1, 1]⟩) i <
          canonicalId (buildRepr (edgeIds ⟨["x", "y"], ["y", "z"], [1, 1]⟩))
            (numNodes ⟨["x", "y"], ["y", "z"], [1, 1]⟩) j ↔
          minRep (buildRepr (edgeIds ⟨["x", "y"], ["y", "z"], [1, 1]⟩))
            (numNodes ⟨["x", "y"], ["y", "z"], [1, 1]⟩) i <
          minRep (buildRepr (edgeIds ⟨["x", "y"], ["y", "z"], [1, 1]⟩))
            (numNodes ⟨["x", "y"], ["y", "z"], [1, 1]⟩) j) :=
  find_components_canonical_order ⟨["x", "y"], ["y", "z"], [1, 1]⟩ (by decide)

/-- Claim C8: node counting returns the number of distinct labels across
the two sequences combined, whatever `n` is supplied; in particular for
`a=[x,y], b=[y,z], n=3` it returns 3. -/
theorem edges_to_all_nodes_distinct_count :
    (∀ (a b : List String) (n : Int),
      edges_to_all_nodes a b n = ((a ++ b).toFinset.card : Int)) ∧
      edges_to_all_nodes ["x", "y"] ["y", "z"] 3 = 3 := by
  constructor
  · intro a b n
    unfold edges_to_all_nodes
    rw [firstSeen_length_eq_card]
  · rfl

/-- Claim C9: both operations terminate on every input — each invocation
produces a result or the deterministic length-mismatch error (the model
is built from total functions, so every invocation reduces to a value). -/
theorem core_operations_total (g : GraphInput) (a b : List String) (n : Int) :
    ((∃ rows, find_components g = Except.ok rows) ∨
      find_components g = Except.error CompError.lengthMismatch) ∧
      ∃ k : Int, edges_to_all_nodes a b n = k := by
  constructor
  · by_cases h : validLengths g
    · exact Or.inl ⟨_, find_components_ok h⟩
    · right
      unfold find_components
      rw [if_neg h]
  · exact ⟨_, rfl⟩

/-- Claim C10: the component-finding entry point is registered with
exactly three arguments (a, b, w) — no separate node-count parameter —
and every node label in its output table appears in the input sequence
`a` or `b`, so isolated nodes can never be supplied to or returned by
it. -/
theorem find_components_output_labels_subset (g : GraphInput)
    (rows : List (String × Nat)) (h : find_components g = Except.ok rows) :
    ("_entropynet_find_components", 3) ∈ CallEntries ∧
      ∀ p ∈ rows, (p : String × Nat).1 ∈ g.a ∨ (p : String × Nat).1 ∈ g.b := by
  constructor
  · exact List.mem_cons_self _ _
  · intro p hp
    have hv : validLengths g := by
      by_contra hv
      unfold find_components at h
      rw [if_neg hv] at h
      exact absurd h (by simp)
    obtain ⟨h1, _⟩ := (mem_rows_iff hv h).mp hp
    exact List.mem_append.mp (mem_firstSeen.mp h1)

/-- Witness for C10 at the input `a=[x], b=[y], w=[1]`. -/
theorem find_components_output_labels_subset_witness :
    ("_entropynet_find_components", 3) ∈ CallEntries ∧
      ∀ p ∈ [("x", 0), ("y", 0)],
        (p : String × Nat).1 ∈ ["x"] ∨ (p : String × Nat).1 ∈ ["y"] :=
  find_components_output_labels_subset ⟨["x"], ["y"], [1]⟩ [("x", 0), ("y", 0)] (by rfl)

end Entropynet
